import Mathlib

/-!
Shallow embedding of `src/main.rs` of the fett-helmet-pi repository.

The program decodes a 64×64 image into intensity samples, reorders them with
a 90° index transform (`Rot90`), thresholds and bit-packs them, and streams the
result over a serial connection with row-paced flushes and sleeps.

The serial connection, observed from this program, is a sequence of events:
byte writes, flushes, and pacing sleeps.  `send_raw` below computes the exact
event trace the Rust function of the same name produces (progress-bar calls
carry no observable effect and are omitted, as the spec states).
-/

namespace Fett

/-- Observable effects on the serial connection during one send:
a byte written, a flush, or a pacing sleep. -/
inductive Ev where
  | write (b : Nat)
  | flush
  | sleep
deriving DecidableEq, Repr

/-- Source: `const INVERT_IMAGE: bool = false;`. -/
def INVERT_IMAGE : Bool := false

/-- Source: `const ROWS_BETWEEN_SLEEPS: u8 = 2;`. -/
def ROWS_BETWEEN_SLEEPS : Nat := 2

/-- Source: `const SLEEP_TIME_MILLIS: u64 = 17;` (duration of each `Ev.sleep`). -/
def SLEEP_TIME_MILLIS : Nat := 17

/-- Source: `const RESET_SEQ: [u8; 11] = [b'#'; 11];` — `b'#' = 35`. -/
def RESET_SEQ : List Nat := List.replicate 11 35

/-- The mutable loop state of `send_raw`:
`rows_since_sleep`, `index_within_row` (an `i32`, starts at `-1`),
`byte` (the packing accumulator) and `index_within_byte`. -/
structure SendState where
  rowsSinceSleep : Nat
  indexWithinRow : Int
  byte : Nat
  indexWithinByte : Nat
deriving DecidableEq, Repr

/-- Source: `(i > (u8::MAX / 2)) ^ INVERT_IMAGE` with `u8::MAX / 2 = 127`;
the `invert` argument stands for the compile-time constant `INVERT_IMAGE`. -/
def thresholdBit (invert : Bool) (i : Nat) : Bool :=
  xor (decide (127 < i)) invert

/-- One iteration of the `for i in data` loop body of `send_raw`, returning the
successor state and the events written during that iteration, mirroring the
source line by line:
bit-or into `byte`; on the 8th bit write the packed byte; on the 8th byte of a
row set `index_within_row = -1`, flush, and run the sleep counter; finally the
`index_within_row == -1` branch writes the `0x0` pad byte. -/
def sendStep (invert : Bool) (st : SendState) (i : Nat) : SendState × List Ev :=
  let byte0 := if thresholdBit invert i
               then st.byte ||| (1 <<< st.indexWithinByte) else st.byte
  let iwb1 := st.indexWithinByte + 1
  let stevs : SendState × List Ev :=
    if iwb1 ≥ 8 then
      let iwr1 := st.indexWithinRow + 1
      if iwr1 ≥ 8 then
        if st.rowsSinceSleep ≥ ROWS_BETWEEN_SLEEPS then
          (⟨0, -1, 0, 0⟩, [Ev.write byte0, Ev.flush, Ev.sleep])
        else
          (⟨st.rowsSinceSleep + 1, -1, 0, 0⟩, [Ev.write byte0, Ev.flush])
      else
        (⟨st.rowsSinceSleep, iwr1, 0, 0⟩, [Ev.write byte0])
    else
      (⟨st.rowsSinceSleep, st.indexWithinRow, byte0, iwb1⟩, [])
  let st1 := stevs.1
  if st1.indexWithinRow = -1 then
    ({ st1 with indexWithinRow := st1.indexWithinRow + 1 }, stevs.2 ++ [Ev.write 0])
  else
    (st1, stevs.2)

/-- The `for i in data` loop of `send_raw` over the remaining samples. -/
def sendLoop (invert : Bool) : SendState → List Nat → List Ev
  | _, [] => []
  | st, i :: rest =>
    let p := sendStep invert st i
    p.2 ++ sendLoop invert p.1 rest

/-- The initial loop state of `send_raw`:
`rows_since_sleep = ROWS_BETWEEN_SLEEPS`, `index_within_row = -1`,
`byte = 0`, `index_within_byte = 0`. -/
def initSendState : SendState := ⟨ROWS_BETWEEN_SLEEPS, -1, 0, 0⟩

/-- Event trace of `HelmetMcu::send_raw`: write the 11-byte `RESET_SEQ`,
flush, run the packing loop over the samples, and flush once more. -/
def send_raw (invert : Bool) (data : List Nat) : List Ev :=
  (RESET_SEQ.map Ev.write) ++ [Ev.flush]
    ++ sendLoop invert initSendState data ++ [Ev.flush]

/-- The bytes written in a trace, in order (flushes and sleeps carry no bytes). -/
def writes (t : List Ev) : List Nat :=
  t.filterMap (fun e => match e with | Ev.write b => some b | _ => none)

/-- The stateful iterator `Rot90<T>`: the source buffer `orig`, the declared
dimensions `w`, `h`, and the cursor `x`, `y`. -/
structure Rot90 (α : Type) where
  orig : List α
  w : Nat
  h : Nat
  x : Nat
  y : Nat
deriving Repr

/-- Source: `Rot90::new` — `assert!(orig.len() == (w * h))`, then the cursor
starts at `x = 0, y = 0`.  The failed assertion (a panic before anything else
runs) is modelled as `none`. -/
def Rot90.new (orig : List α) (dims : Nat × Nat) : Option (Rot90 α) :=
  if orig.length = dims.1 * dims.2 then
    some ⟨orig, dims.1, dims.2, 0, 0⟩
  else none

/-- Source: `Rot90::at_pre` — `index = (yt * w) + xt`, `None` when the index
reaches past the buffer, else the element there. -/
def Rot90.at_pre (r : Rot90 α) (xt yt : Nat) : Option α :=
  let index := yt * r.w + xt
  if index ≥ r.orig.length then none else r.orig[index]?

/-- Source: `Rot90::internal_peek` — `xt = y`, `yt = w - x - 1` (a `usize`
subtraction; in every theorem below `x < w` holds, where Lean's truncating
`Nat` subtraction agrees with Rust). -/
def Rot90.internal_peek (r : Rot90 α) : Option α :=
  r.at_pre r.y (r.w - r.x - 1)

/-- Source: `<Rot90 as Iterator>::next` — peek, and on success advance `x`,
wrapping to the next `y` when `x` reaches `h`. -/
def Rot90.next (r : Rot90 α) : Option α × Rot90 α :=
  match r.internal_peek with
  | none => (none, r)
  | some v =>
    let x1 := r.x + 1
    if x1 ≥ r.h then (some v, { r with x := 0, y := r.y + 1 })
    else (some v, { r with x := x1 })

/-- Driving the lazy iterator: collect the emitted samples until the iterator
returns `none`, with a fuel bound (the Rust iterator is consumed by a `for`
loop; any fuel at least the number of emissions yields the whole sequence). -/
def Rot90.takeAll : Nat → Rot90 α → List α
  | 0, _ => []
  | fuel + 1, r =>
    match r.next with
    | (none, _) => []
    | (some v, r1) => v :: Rot90.takeAll fuel r1

/-- The packing accumulator of `send_raw` in isolation: starting from bit
position `k` and accumulator `acc`, fold the samples with
`byte |= 1 << index_within_byte` for each sample above threshold. -/
def packBits (invert : Bool) : List Nat → Nat → Nat → Nat
  | [], _, acc => acc
  | i :: rest, k, acc =>
    packBits invert rest (k + 1)
      (if thresholdBit invert i then acc ||| (1 <<< k) else acc)

/-- The data byte `send_raw` emits for one group of 8 consecutive samples. -/
def pack8 (invert : Bool) (c : List Nat) : Nat := packBits invert c 0 0

/-- Split a list into consecutive chunks of 8 (the last chunk may be short). -/
def chunks8 (l : List Nat) : List (List Nat) :=
  if l = [] then [] else l.take 8 :: chunks8 (l.drop 8)
termination_by l.length
decreasing_by
  simp only [List.length_drop]
  rcases l with _ | ⟨a, l⟩
  · simp_all
  · simp; omega

/-- Split a list into consecutive chunks of 64 (one physical row of samples). -/
def chunks64 (l : List Nat) : List (List Nat) :=
  if l = [] then [] else l.take 64 :: chunks64 (l.drop 64)
termination_by l.length
decreasing_by
  simp only [List.length_drop]
  rcases l with _ | ⟨a, l⟩
  · simp_all
  · simp; omega

/-- Successor of the `rows_since_sleep` counter at a row boundary. -/
def nextRss (rss : Nat) : Nat :=
  if rss ≥ ROWS_BETWEEN_SLEEPS then 0 else rss + 1

/-- The sleep events emitted at a row boundary. -/
def sleepEvs (rss : Nat) : List Ev :=
  if rss ≥ ROWS_BETWEEN_SLEEPS then [Ev.sleep] else []

/-- The events one row of 64 samples contributes once the loop state is at a
row start: the 8 packed data bytes, the flush, the sleep (when due), and the
pad byte the `index_within_row == -1` branch writes right after. -/
def rowEvents (invert : Bool) (rss : Nat) (r : List Nat) : List Ev :=
  (chunks8 r).map (fun c => Ev.write (pack8 invert c))
    ++ [Ev.flush] ++ sleepEvs rss ++ [Ev.write 0]

/-- The events of `n` whole rows of samples, threading the sleep counter. -/
def rowsTrace (invert : Bool) : Nat → Nat → List Nat → List Ev
  | 0, _, _ => []
  | n + 1, rss, l =>
    rowEvents invert rss (l.take 64) ++ rowsTrace invert n (nextRss rss) (l.drop 64)

/-- Number of sleeps in `n` rows starting from sleep counter `rss`. -/
def sleepCnt : Nat → Nat → Nat
  | 0, _ => 0
  | n + 1, rss => (if rss ≥ ROWS_BETWEEN_SLEEPS then 1 else 0) + sleepCnt n (nextRss rss)

/-- The bytes one row unit contributes to the wire. -/
def rowBytes (invert : Bool) (r : List Nat) : List Nat :=
  (chunks8 r).map (pack8 invert) ++ [0]

/-- Which decoder's result `send_png_g` ends up sending. -/
inductive SendPath where
  | grayscale
  | onebit
deriving DecidableEq, Repr

/-- Source: `HelmetMcu::send_png_g` — decode via `read_png` (grayscale); if
`data.len() != (64 * 64)` then `assert!(data.len() == (64 * 64 / 8))` and send
the file again through the 1-bit path, else send the grayscale result rotated.
The argument is the grayscale-decoded buffer; `none` models the failed
assertion (a panic, not recoverable). -/
def send_png_g (data : List Nat) : Option SendPath :=
  if data.length ≠ 64 * 64 then
    if data.length = 64 * 64 / 8 then some SendPath.onebit else none
  else some SendPath.grayscale

/-- Source: `HelmetMcu::send_rotated` — `self.send_raw(Rot90::new(data, self.dims))`.
Rust evaluates `Rot90::new(data, self.dims)` before `send_raw` runs, so when its
assertion fails the call panics with nothing written: the result is the pair of
the events written to the serial connection and a success flag.  The iterator
fuel `dims.1 * dims.2` drives the lazy sequence to exhaustion for the square
dimensions the program uses (the session is fixed at `(64, 64)`). -/
def send_rotated_events (invert : Bool) (dims : Nat × Nat) (data : List Nat) :
    List Ev × Bool :=
  match Rot90.new data dims with
  | none => ([], false)
  | some r => (send_raw invert (Rot90.takeAll (dims.1 * dims.2) r), true)

/-- The inner `for j in 0..8` loop of `read_png_1bit`: for each bit position
`j`, if `raw_buf[i] & (1 << j) > 0`, set `buf[(i * 8) + j] = 0xFF` (255). -/
def fill_byte (raw : List Nat) (buf : List Nat) (i : Nat) : List Nat :=
  (List.range 8).foldl
    (fun buf j =>
      if (raw.getD i 0) &&& (1 <<< j) > 0 then buf.set (i * 8 + j) 255 else buf)
    buf

/-- Source: `read_png_1bit`, after `reader.next_frame` fills `raw_buf` (the
argument here): `buf = vec![0u8; raw_buf.len() * 8]`, then the nested loops
`for i in 0..raw_buf.len()`, `for j in 0..8` run `fill_byte`. -/
def read_png_1bit (raw : List Nat) : List Nat :=
  (List.range raw.length).foldl (fill_byte raw) (List.replicate (raw.length * 8) 0)

/-- Value of the bit sequence a sample group thresholds to, least significant
bit first: `b0 + 2·b1 + 4·b2 + …`. -/
def bitSum (invert : Bool) : List Nat → Nat
  | [] => 0
  | i :: rest => (if thresholdBit invert i then 1 else 0) + 2 * bitSum invert rest

theorem lor_two_pow_of_lt {a k : Nat} (h : a < 2 ^ k) : a ||| 2 ^ k = a + 2 ^ k := by
  induction k generalizing a with
  | zero =>
    interval_cases a
    rfl
  | succ k ih =>
    have hd : (a ||| 2 ^ (k + 1)) / 2 = a / 2 + 2 ^ k := by
      rw [Nat.or_div_two]
      have h2 : 2 ^ (k + 1) / 2 = 2 ^ k := by
        rw [pow_succ]
        omega
      rw [h2]
      exact ih (by rw [pow_succ] at h; omega)
    have hm : (a ||| 2 ^ (k + 1)) % 2 = a % 2 := by
      have hpow : 2 ^ (k + 1) % 2 = 0 := by
        rw [pow_succ]
        omega
      have := @Nat.or_mod_two_eq_one a (2 ^ (k + 1))
      omega
    have h1 := Nat.div_add_mod (a ||| 2 ^ (k + 1)) 2
    have h2 := Nat.div_add_mod a 2
    rw [pow_succ] at *
    omega

theorem packBits_eq_bitSum (invert : Bool) (c : List Nat) :
    ∀ (k acc : Nat), acc < 2 ^ k →
      packBits invert c k acc = acc + 2 ^ k * bitSum invert c := by
  induction c with
  | nil => intro k acc _; simp [packBits, bitSum]
  | cons a c ih =>
    intro k acc hacc
    have hshift : (1 : Nat) <<< k = 2 ^ k := by
      rw [Nat.shiftLeft_eq, one_mul]
    by_cases hb : thresholdBit invert a
    · have hstep : packBits invert (a :: c) k acc = packBits invert c (k + 1) (acc + 2 ^ k) := by
        simp only [packBits, hb, if_pos, hshift, lor_two_pow_of_lt hacc]
      rw [hstep, ih (k + 1) (acc + 2 ^ k) (by rw [pow_succ]; omega)]
      simp only [bitSum, hb, if_pos]
      ring
    · have hstep : packBits invert (a :: c) k acc = packBits invert c (k + 1) acc := by
        simp [packBits, hb]
      rw [hstep, ih (k + 1) acc (by rw [pow_succ]; omega)]
      simp [bitSum, hb]
      ring

theorem pack8_eq_bitSum (invert : Bool) (c : List Nat) :
    pack8 invert c = bitSum invert c := by
  have := packBits_eq_bitSum invert c 0 0 (by norm_num)
  simpa [pack8] using this

theorem sendLoop_byte (invert : Bool) (c : List Nat) :
    ∀ (st : SendState) (rest : List Nat),
      st.indexWithinByte + c.length = 8 → st.indexWithinByte < 8 →
      0 ≤ st.indexWithinRow →
      sendLoop invert st (c ++ rest) =
        if st.indexWithinRow + 1 ≥ 8 then
          [Ev.write (packBits invert c st.indexWithinByte st.byte), Ev.flush]
            ++ sleepEvs st.rowsSinceSleep ++ [Ev.write 0]
            ++ sendLoop invert ⟨nextRss st.rowsSinceSleep, 0, 0, 0⟩ rest
        else
          Ev.write (packBits invert c st.indexWithinByte st.byte)
            :: sendLoop invert ⟨st.rowsSinceSleep, st.indexWithinRow + 1, 0, 0⟩ rest := by
  induction c with
  | nil =>
    rintro ⟨rss, iwr, byte, iwb⟩ rest hlen hlt _
    dsimp only at hlen hlt
    simp at hlen
    omega
  | cons a c ih =>
    rintro ⟨rss, iwr, byte, iwb⟩ rest hlen hlt hge
    dsimp only at hlen hlt hge ⊢
    match c with
    | [] =>
      have hiwb : iwb = 7 := by simpa using hlen
      subst hiwb
      by_cases hrow : iwr + 1 ≥ 8
      · by_cases hs : rss ≥ ROWS_BETWEEN_SLEEPS
        · simp [sendLoop, sendStep, sleepEvs, nextRss, packBits, hrow, hs]
        · simp [sendLoop, sendStep, sleepEvs, nextRss, packBits, hrow, hs]
      · have hne : ¬ iwr + 1 = -1 := by omega
        simp [sendLoop, sendStep, packBits, hrow, hne]
    | a' :: c' =>
      have hiwb : iwb + 1 < 8 := by simp at hlen; omega
      have hne : ¬ iwr = -1 := by omega
      have hstep : sendLoop invert ⟨rss, iwr, byte, iwb⟩ (a :: (a' :: c') ++ rest) =
          sendLoop invert
            ⟨rss, iwr, if thresholdBit invert a then byte ||| 1 <<< iwb else byte, iwb + 1⟩
            ((a' :: c') ++ rest) := by
        simp [sendLoop, sendStep, hne, Nat.not_le.mpr hiwb]
      rw [hstep, ih ⟨rss, iwr, _, iwb + 1⟩ rest (by simp at hlen ⊢; omega) hiwb hge]
      simp [packBits]

theorem chunks8_nil : chunks8 [] = [] := by
  rw [chunks8]
  simp

theorem chunks8_append (r s : List Nat) (h : r.length = 8) :
    chunks8 (r ++ s) = r :: chunks8 s := by
  have hne : r ++ s ≠ [] := by
    intro hc
    apply_fun List.length at hc
    simp [h] at hc
  rw [chunks8, if_neg hne]
  have ht : (r ++ s).take 8 = r := by
    rw [List.take_append_of_le_length (by omega), ← h, List.take_length]
  have hd : (r ++ s).drop 8 = s := by
    rw [List.drop_append_of_le_length (by omega), ← h, List.drop_length, List.nil_append]
  rw [ht, hd]

theorem chunks64_nil : chunks64 [] = [] := by
  rw [chunks64]
  simp

theorem chunks64_append (r s : List Nat) (h : r.length = 64) :
    chunks64 (r ++ s) = r :: chunks64 s := by
  have hne : r ++ s ≠ [] := by
    intro hc
    apply_fun List.length at hc
    simp [h] at hc
  rw [chunks64, if_neg hne]
  have ht : (r ++ s).take 64 = r := by
    rw [List.take_append_of_le_length (by omega), ← h, List.take_length]
  have hd : (r ++ s).drop 64 = s := by
    rw [List.drop_append_of_le_length (by omega), ← h, List.drop_length, List.nil_append]
  rw [ht, hd]

theorem sendLoop_rowTail (invert : Bool) :
    ∀ (k : Nat), k ≤ 8 → 1 ≤ k → ∀ (rss : Nat) (r rest : List Nat), r.length = 8 * k →
      sendLoop invert ⟨rss, ((8 - k : Nat) : Int), 0, 0⟩ (r ++ rest) =
        (chunks8 r).map (fun c => Ev.write (pack8 invert c))
          ++ [Ev.flush] ++ sleepEvs rss ++ [Ev.write 0]
          ++ sendLoop invert ⟨nextRss rss, 0, 0, 0⟩ rest := by
  intro k
  induction k with
  | zero => omega
  | succ k ih =>
    intro hk8 _ rss r rest hlen
    rcases Nat.eq_zero_or_pos k with hk0 | hkpos
    · subst hk0
      have hb := sendLoop_byte invert r ⟨rss, ((8 - 1 : Nat) : Int), 0, 0⟩ rest
        (by simpa using hlen) (by norm_num) (by norm_num)
      rw [hb]
      have hcond : ((8 - 1 : Nat) : Int) + 1 ≥ 8 := by norm_num
      rw [if_pos hcond]
      have hch : chunks8 r = [r] := by
        have h2 := chunks8_append r [] (by omega)
        rw [List.append_nil] at h2
        rw [h2, chunks8_nil]
      simp [hch, pack8]
    · have hsplit : r = r.take 8 ++ r.drop 8 := (List.take_append_drop 8 r).symm
      have htl : (r.take 8).length = 8 := by
        rw [List.length_take]
        omega
      rw [hsplit, List.append_assoc]
      have hb := sendLoop_byte invert (r.take 8) ⟨rss, ((8 - (k + 1) : Nat) : Int), 0, 0⟩
        (r.drop 8 ++ rest) (by simpa using htl) (by norm_num) (by positivity)
      rw [hb]
      have hcond : ¬ ((8 - (k + 1) : Nat) : Int) + 1 ≥ 8 := by
        have : ((8 - (k + 1) : Nat) : Int) = 8 - (k + 1 : Nat) := by
          push_cast
          omega
        omega
      rw [if_neg hcond]
      have hstate : ((8 - (k + 1) : Nat) : Int) + 1 = ((8 - k : Nat) : Int) := by
        push_cast
        omega
      rw [hstate]
      rw [ih (by omega) hkpos rss (r.drop 8) rest (by rw [List.length_drop]; omega)]
      rw [chunks8_append (r.take 8) (r.drop 8) htl]
      simp [pack8]

/-- The sleep counter after `n` completed rows, starting from `rss`. -/
def rssAfter : Nat → Nat → Nat
  | 0, rss => rss
  | n + 1, rss => rssAfter n (nextRss rss)

theorem sendLoop_rows (invert : Bool) :
    ∀ (n : Nat) (rss : Nat) (l rest : List Nat), l.length = 64 * n →
      sendLoop invert ⟨rss, 0, 0, 0⟩ (l ++ rest) =
        rowsTrace invert n rss l ++ sendLoop invert ⟨rssAfter n rss, 0, 0, 0⟩ rest := by
  intro n
  induction n with
  | zero =>
    intro rss l rest hlen
    rw [List.length_eq_zero] at hlen
    subst hlen
    simp [rowsTrace, rssAfter]
  | succ n ih =>
    intro rss l rest hlen
    have hsplit : l = l.take 64 ++ l.drop 64 := (List.take_append_drop 64 l).symm
    have htl : (l.take 64).length = 8 * 8 := by
      rw [List.length_take]
      omega
    have hrt := sendLoop_rowTail invert 8 (by norm_num) (by norm_num) rss (l.take 64)
      (l.drop 64 ++ rest) htl
    rw [show ((8 - 8 : Nat) : Int) = 0 from by norm_num] at hrt
    calc sendLoop invert ⟨rss, 0, 0, 0⟩ (l ++ rest)
        = sendLoop invert ⟨rss, 0, 0, 0⟩ (l.take 64 ++ (l.drop 64 ++ rest)) := by
          rw [← List.append_assoc, ← hsplit]
      _ = (chunks8 (l.take 64)).map (fun c => Ev.write (pack8 invert c))
            ++ [Ev.flush] ++ sleepEvs rss ++ [Ev.write 0]
            ++ sendLoop invert ⟨nextRss rss, 0, 0, 0⟩ (l.drop 64 ++ rest) := hrt
      _ = rowsTrace invert (n + 1) rss l
            ++ sendLoop invert ⟨rssAfter (n + 1) rss, 0, 0, 0⟩ rest := by
          rw [ih (nextRss rss) (l.drop 64) rest (by rw [List.length_drop]; omega)]
          simp [rowsTrace, rowEvents, rssAfter]

theorem sendLoop_start (invert : Bool) (a : Nat) (l : List Nat) :
    sendLoop invert initSendState (a :: l) =
      Ev.write 0 ::
        sendLoop invert ⟨ROWS_BETWEEN_SLEEPS, 0,
          (if thresholdBit invert a then 0 ||| 1 <<< 0 else 0), 1⟩ l := by
  simp [sendLoop, sendStep, initSendState]

theorem sendLoop_full_aux (invert : Bool) (n : Nat) (a : Nat) (t7 d56 rest : List Nat)
    (h7 : t7.length = 7) (h56 : d56.length = 8 * 7) (hr : rest.length = 64 * n) :
    sendLoop invert initSendState (a :: (t7 ++ (d56 ++ rest))) =
      Ev.write 0
        :: rowsTrace invert (n + 1) ROWS_BETWEEN_SLEEPS (a :: (t7 ++ (d56 ++ rest))) := by
  rw [sendLoop_start]
  have hb := sendLoop_byte invert t7
    ⟨ROWS_BETWEEN_SLEEPS, 0, (if thresholdBit invert a then 0 ||| 1 <<< 0 else 0), 1⟩
    (d56 ++ rest) (by dsimp only; omega) (by norm_num) (by norm_num)
  norm_num at hb
  norm_num
  rw [hb]
  have hrt := sendLoop_rowTail invert 7 (by norm_num) (by norm_num) ROWS_BETWEEN_SLEEPS
    d56 rest h56
  rw [show ((8 - 7 : Nat) : Int) = 1 from by norm_num] at hrt
  rw [hrt]
  have hrows := sendLoop_rows invert n (nextRss ROWS_BETWEEN_SLEEPS) rest [] hr
  simp only [sendLoop, List.append_nil] at hrows
  rw [hrows]
  have ht7 : t7.take 63 = t7 := List.take_of_length_le (by omega)
  have hLtake : (a :: (t7 ++ (d56 ++ rest))).take 64 = (a :: t7) ++ d56 := by
    rw [show (64 : Nat) = 63 + 1 from rfl, List.take_succ_cons,
      List.take_append_eq_append_take, ht7, h7,
      List.take_append_of_le_length (by omega), List.take_of_length_le (by omega)]
    simp
  have hLdrop : (a :: (t7 ++ (d56 ++ rest))).drop 64 = rest := by
    rw [show (64 : Nat) = 63 + 1 from rfl, List.drop_succ_cons,
      List.drop_append_eq_append_drop, List.drop_eq_nil_of_le (by omega), h7,
      List.drop_append_eq_append_drop, List.drop_eq_nil_of_le (by omega)]
    simp [show 63 - 7 - d56.length = 0 from by omega]
  have hch : chunks8 ((a :: t7) ++ d56) = (a :: t7) :: chunks8 d56 :=
    chunks8_append _ _ (by simp [h7])
  simp only [rowsTrace, rowEvents, hLtake, hLdrop, hch]
  simp [pack8, packBits]

theorem sendLoop_full (invert : Bool) (n : Nat) (l : List Nat)
    (hlen : l.length = 64 * (n + 1)) :
    sendLoop invert initSendState l =
      Ev.write 0 :: rowsTrace invert (n + 1) ROWS_BETWEEN_SLEEPS l := by
  obtain ⟨a, l', rfl⟩ : ∃ a l', l = a :: l' := by
    cases l with
    | nil => simp at hlen
    | cons a l' => exact ⟨a, l', rfl⟩
  have hlen' : l'.length = 63 + 64 * n := by
    simp at hlen
    omega
  have hdec : l' = l'.take 7 ++ ((l'.drop 7).take 56 ++ (l'.drop 7).drop 56) := by
    rw [List.take_append_drop, List.take_append_drop]
  rw [hdec]
  exact sendLoop_full_aux invert n a (l'.take 7) ((l'.drop 7).take 56) ((l'.drop 7).drop 56)
    (by rw [List.length_take]; omega)
    (by rw [List.length_take, List.length_drop]; omega)
    (by rw [List.length_drop, List.length_drop]; omega)

/-- Complete characterisation of the `send_raw` event trace for a sample
sequence of `64 × (n + 1)` samples: the 11 sentinel bytes and a flush, the
pad byte the first loop iteration writes, then one row unit after another
(8 packed data bytes, a flush, a sleep when the counter is due, and the
trailing pad byte), and a final flush. -/
theorem send_raw_trace (invert : Bool) (n : Nat) (l : List Nat)
    (hlen : l.length = 64 * (n + 1)) :
    send_raw invert l =
      List.replicate 11 (Ev.write 35) ++ [Ev.flush] ++ [Ev.write 0]
        ++ rowsTrace invert (n + 1) ROWS_BETWEEN_SLEEPS l ++ [Ev.flush] := by
  rw [send_raw, sendLoop_full invert n l hlen, RESET_SEQ]
  simp

theorem writes_append (s t : List Ev) : writes (s ++ t) = writes s ++ writes t :=
  List.filterMap_append s t _

theorem writes_rowEvents (invert : Bool) (rss : Nat) (r : List Nat) :
    writes (rowEvents invert rss r) = rowBytes invert r := by
  rw [rowEvents, rowBytes]
  rw [writes_append, writes_append, writes_append]
  have h1 : writes ((chunks8 r).map (fun c => Ev.write (pack8 invert c)))
      = (chunks8 r).map (pack8 invert) := by
    rw [writes, List.filterMap_map]
    show List.filterMap (fun c => some (pack8 invert c)) (chunks8 r) = _
    rw [show (fun c => some (pack8 invert c)) = some ∘ (pack8 invert) from rfl,
      List.filterMap_eq_map]
  have h2 : writes (sleepEvs rss) = [] := by
    rw [sleepEvs]
    split <;> rfl
  rw [h1, h2]
  simp [writes]

theorem writes_rowsTrace (invert : Bool) :
    ∀ (n rss : Nat) (l : List Nat), l.length = 64 * n →
      writes (rowsTrace invert n rss l) = (chunks64 l).flatMap (rowBytes invert) := by
  intro n
  induction n with
  | zero =>
    intro rss l hlen
    rw [List.length_eq_zero] at hlen
    subst hlen
    simp [rowsTrace, chunks64_nil, writes]
  | succ n ih =>
    intro rss l hlen
    have hsplit : l = l.take 64 ++ l.drop 64 := (List.take_append_drop 64 l).symm
    have htl : (l.take 64).length = 64 := by
      rw [List.length_take]
      omega
    rw [rowsTrace, writes_append, writes_rowEvents,
      ih (nextRss rss) (l.drop 64) (by rw [List.length_drop]; omega)]
    conv_rhs => rw [hsplit]
    rw [chunks64_append _ _ htl, List.flatMap_cons]

theorem chunks8_length : ∀ (k : Nat) (l : List Nat), l.length = 8 * k →
    (chunks8 l).length = k := by
  intro k
  induction k with
  | zero =>
    intro l hlen
    rw [List.length_eq_zero] at hlen
    subst hlen
    rw [chunks8_nil]
    rfl
  | succ k ih =>
    intro l hlen
    have hsplit : l = l.take 8 ++ l.drop 8 := (List.take_append_drop 8 l).symm
    have htl : (l.take 8).length = 8 := by
      rw [List.length_take]
      omega
    conv_lhs => rw [hsplit]
    rw [chunks8_append _ _ htl, List.length_cons,
      ih (l.drop 8) (by rw [List.length_drop]; omega)]

theorem rowBytes_length (invert : Bool) (r : List Nat) (h : r.length = 64) :
    (rowBytes invert r).length = 9 := by
  rw [rowBytes, List.length_append, List.length_map,
    chunks8_length 8 r (by omega)]
  rfl

theorem writes_rowsTrace_length (invert : Bool) :
    ∀ (n rss : Nat) (l : List Nat), l.length = 64 * n →
      (writes (rowsTrace invert n rss l)).length = 9 * n := by
  intro n
  induction n with
  | zero =>
    intro rss l hlen
    rw [List.length_eq_zero] at hlen
    subst hlen
    simp [rowsTrace, writes]
  | succ n ih =>
    intro rss l hlen
    rw [rowsTrace, writes_append, List.length_append, writes_rowEvents,
      rowBytes_length invert _ (by rw [List.length_take]; omega),
      ih (nextRss rss) (l.drop 64) (by rw [List.length_drop]; omega)]
    ring

/-- The written bytes of a whole send: preamble, the leading pad byte, then
the bytes of each 64-sample row in turn. -/
theorem send_raw_writes (invert : Bool) (n : Nat) (l : List Nat)
    (hlen : l.length = 64 * (n + 1)) :
    writes (send_raw invert l) =
      List.replicate 11 35 ++ 0 :: (chunks64 l).flatMap (rowBytes invert) := by
  rw [send_raw_trace invert n l hlen]
  rw [writes_append, writes_append, writes_append, writes_append,
    writes_rowsTrace invert (n + 1) _ l hlen]
  have hpre : writes (List.replicate 11 (Ev.write 35)) = List.replicate 11 35 := by
    rfl
  rw [hpre]
  simp [writes]

theorem send_raw_writes_length (invert : Bool) (n : Nat) (l : List Nat)
    (hlen : l.length = 64 * (n + 1)) :
    (writes (send_raw invert l)).length = 12 + 9 * (n + 1) := by
  rw [send_raw_trace invert n l hlen]
  rw [writes_append, writes_append, writes_append, writes_append]
  simp only [List.length_append]
  rw [writes_rowsTrace_length invert (n + 1) _ l hlen]
  rfl

theorem count_sleep_rowEvents (invert : Bool) (rss : Nat) (r : List Nat) :
    (rowEvents invert rss r).count Ev.sleep
      = if rss ≥ ROWS_BETWEEN_SLEEPS then 1 else 0 := by
  rw [rowEvents, List.count_append, List.count_append, List.count_append]
  have h1 : ((chunks8 r).map (fun c => Ev.write (pack8 invert c))).count Ev.sleep = 0 := by
    rw [List.count_eq_zero]
    simp
  have h2 : (sleepEvs rss).count Ev.sleep = if rss ≥ ROWS_BETWEEN_SLEEPS then 1 else 0 := by
    rw [sleepEvs]
    split <;> simp
  rw [h1, h2]
  simp

theorem count_sleep_rowsTrace (invert : Bool) :
    ∀ (n rss : Nat) (l : List Nat),
      (rowsTrace invert n rss l).count Ev.sleep = sleepCnt n rss := by
  intro n
  induction n with
  | zero => intro rss l; simp [rowsTrace, sleepCnt]
  | succ n ih =>
    intro rss l
    rw [rowsTrace, List.count_append, count_sleep_rowEvents, ih, sleepCnt]

theorem sleepCnt_div (n : Nat) :
    sleepCnt n 2 = (n + 2) / 3 ∧ sleepCnt n 0 = n / 3 ∧ sleepCnt n 1 = (n + 1) / 3 := by
  induction n with
  | zero => exact ⟨rfl, rfl, rfl⟩
  | succ n ih =>
    obtain ⟨h2, h0, h1⟩ := ih
    refine ⟨?_, ?_, ?_⟩
    · rw [sleepCnt, show nextRss 2 = 0 from rfl, h0]
      norm_num [ROWS_BETWEEN_SLEEPS]
      omega
    · rw [sleepCnt, show nextRss 0 = 1 from rfl, h1]
      norm_num [ROWS_BETWEEN_SLEEPS]
    · rw [sleepCnt, show nextRss 1 = 2 from rfl, h2]
      norm_num [ROWS_BETWEEN_SLEEPS]

theorem send_raw_sleep_count (invert : Bool) (n : Nat) (l : List Nat)
    (hlen : l.length = 64 * (n + 1)) :
    (send_raw invert l).count Ev.sleep = (n + 3) / 3 := by
  rw [send_raw_trace invert n l hlen, List.count_append, List.count_append,
    List.count_append, List.count_append, count_sleep_rowsTrace]
  have hpre : (List.replicate 11 (Ev.write 35)).count Ev.sleep = 0 := by
    rw [List.count_eq_zero]
    simp [List.mem_replicate]
  rw [hpre, show ROWS_BETWEEN_SLEEPS = 2 from rfl, (sleepCnt_div (n + 1)).1]
  simp
  omega

/-- Scan of an event trace checking that every sleep event is immediately
preceded by a flush; `prev` is the event before the scanned suffix. -/
def sff (prev : Ev) : List Ev → Bool
  | [] => true
  | e :: rest =>
    ((if e = Ev.sleep then decide (prev = Ev.flush) else true)) && sff e rest

theorem sff_append (p : Ev) (xs ys : List Ev) :
    sff p (xs ++ ys) = (sff p xs && sff (xs.getLastD p) ys) := by
  induction xs generalizing p with
  | nil => simp [sff]
  | cons x xs ih =>
    rw [List.cons_append, sff, sff, List.getLastD_cons, ih x, Bool.and_assoc]

theorem sff_of_no_sleep (l : List Ev) (hl : Ev.sleep ∉ l) : ∀ p, sff p l = true := by
  induction l with
  | nil => intro p; rfl
  | cons e rest ih =>
    intro p
    rw [sff]
    have he : ¬ e = Ev.sleep := by
      intro hc
      exact hl (hc ▸ List.mem_cons_self e rest)
    rw [if_neg he, Bool.true_and]
    exact ih (fun hc => hl (List.mem_cons_of_mem e hc)) e

theorem sff_rowEvents (invert : Bool) (rss : Nat) (r : List Nat) (p : Ev) :
    sff p (rowEvents invert rss r) = true := by
  have h1 : ∀ q, sff q ((chunks8 r).map (fun c => Ev.write (pack8 invert c))) = true :=
    fun q => sff_of_no_sleep _ (by simp) q
  by_cases hs : rss ≥ ROWS_BETWEEN_SLEEPS
  · rw [rowEvents, show sleepEvs rss = [Ev.sleep] from by rw [sleepEvs, if_pos hs]]
    simp [sff_append, List.getLastD_concat, h1, sff]
  · rw [rowEvents, show sleepEvs rss = [] from by rw [sleepEvs, if_neg hs]]
    simp [sff_append, List.getLastD_concat, h1, sff]

theorem sff_rowsTrace (invert : Bool) :
    ∀ (n rss : Nat) (l : List Nat) (p : Ev), sff p (rowsTrace invert n rss l) = true := by
  intro n
  induction n with
  | zero => intro rss l p; rfl
  | succ n ih =>
    intro rss l p
    rw [rowsTrace, sff_append, sff_rowEvents, ih, Bool.and_self]

/-- In a full send of `64 × (n + 1)` samples, every sleep event in the trace is
immediately preceded by a flush event. -/
theorem sff_send_raw (invert : Bool) (n : Nat) (l : List Nat)
    (hlen : l.length = 64 * (n + 1)) :
    sff (Ev.write 0) (send_raw invert l) = true := by
  rw [send_raw_trace invert n l hlen]
  simp [sff, sff_append, sff_rowsTrace]

theorem sendLoop_short (invert : Bool) :
    ∀ (c : List Nat) (st : SendState),
      st.indexWithinByte + c.length < 8 → 0 ≤ st.indexWithinRow →
      sendLoop invert st c = [] := by
  intro c
  induction c with
  | nil => intro st _ _; rfl
  | cons a c ih =>
    rintro ⟨rss, iwr, byte, iwb⟩ hlen hge
    dsimp only at hlen hge
    have hlt : ¬ iwb + 1 ≥ 8 := by simp at hlen; omega
    have hne : ¬ iwr = -1 := by omega
    have hstep : sendLoop invert ⟨rss, iwr, byte, iwb⟩ (a :: c) =
        sendLoop invert
          ⟨rss, iwr, if thresholdBit invert a then byte ||| 1 <<< iwb else byte, iwb + 1⟩
          c := by
      simp [sendLoop, sendStep, hne, hlt]
    rw [hstep, ih _ (by simp at hlen ⊢; omega) hge]

theorem sendLoop_drop_tail (invert : Bool) :
    ∀ (k : Nat) (l : List Nat) (st : SendState) (c : List Nat),
      l.length = 8 * k → st.indexWithinByte = 0 → st.byte = 0 →
      0 ≤ st.indexWithinRow → c.length < 8 →
      sendLoop invert st (l ++ c) = sendLoop invert st l := by
  intro k
  induction k with
  | zero =>
    intro l st c hlen hiwb hbyte hge hc
    rw [List.length_eq_zero] at hlen
    subst hlen
    rw [List.nil_append]
    show sendLoop invert st c = sendLoop invert st []
    rw [sendLoop_short invert c st (by omega) hge]
    rfl
  | succ k ih =>
    intro l st c hlen hiwb hbyte hge hc
    have hsplit : l = l.take 8 ++ l.drop 8 := (List.take_append_drop 8 l).symm
    have htl : (l.take 8).length = 8 := by
      rw [List.length_take]
      omega
    conv_lhs => rw [hsplit, List.append_assoc]
    conv_rhs => rw [hsplit]
    rw [sendLoop_byte invert (l.take 8) st (l.drop 8 ++ c) (by omega) (by omega) hge,
      sendLoop_byte invert (l.take 8) st (l.drop 8) (by omega) (by omega) hge]
    have hdl : (l.drop 8).length = 8 * k := by
      rw [List.length_drop]
      omega
    split
    · rw [ih (l.drop 8) _ c hdl rfl rfl (by norm_num) hc]
    · rw [ih (l.drop 8) _ c hdl rfl rfl (by dsimp only; omega) hc]

theorem sendLoop_tail_aux (invert : Bool) (a : Nat) (t7 rest c : List Nat)
    (h7 : t7.length = 7) (hrest : rest.length % 8 = 0) (hc : c.length < 8) :
    sendLoop invert initSendState (a :: (t7 ++ (rest ++ c))) =
      sendLoop invert initSendState (a :: (t7 ++ rest)) := by
  rw [sendLoop_start, sendLoop_start]
  rw [sendLoop_byte invert t7 _ (rest ++ c) (by dsimp only; omega) (by norm_num)
    (by norm_num),
    sendLoop_byte invert t7 _ rest (by dsimp only; omega) (by norm_num) (by norm_num)]
  have hcond : ¬ ((0 : Int) + 1 ≥ 8) := by norm_num
  rw [if_neg hcond, if_neg hcond]
  rw [sendLoop_drop_tail invert (rest.length / 8) rest _ c (by omega) rfl rfl
    (by norm_num) hc]

/-- Trailing samples that do not fill a byte produce no events at all: for a
sample count that is `8·k + r` with `0 < r < 8`, the trace equals that of the
first `8·k` samples — the partial byte is never written, padded, or flushed. -/
theorem send_raw_drop_partial (invert : Bool) (l c : List Nat)
    (hl : l ≠ []) (hmul : l.length % 8 = 0) (hc : c.length < 8) :
    send_raw invert (l ++ c) = send_raw invert l := by
  obtain ⟨a, l', rfl⟩ : ∃ a l', l = a :: l' := by
    cases l with
    | nil => exact absurd rfl hl
    | cons a l' => exact ⟨a, l', rfl⟩
  have hlen' : l'.length % 8 = 7 := by
    simp at hmul ⊢
    omega
  have h7len : l'.length ≥ 7 := by omega
  have hdec : l' = l'.take 7 ++ l'.drop 7 := (List.take_append_drop 7 l').symm
  rw [send_raw, send_raw]
  have hl2 : (a :: l') ++ c = a :: (l'.take 7 ++ (l'.drop 7 ++ c)) := by
    rw [← List.append_assoc, ← hdec]
    rfl
  rw [hl2]
  conv_rhs => rw [hdec]
  rw [sendLoop_tail_aux invert a (l'.take 7) (l'.drop 7) c
    (by rw [List.length_take]; omega)
    (by rw [List.length_drop]; omega) hc]

theorem takeAll_spec (w : Nat) (orig : List Nat) (hlen : orig.length = w * w) :
    ∀ (fuel x y : Nat), ((x < w ∧ y < w) ∨ (x = 0 ∧ y = w)) →
      w * w - (y * w + x) ≤ fuel →
      Rot90.takeAll fuel (⟨orig, w, w, x, y⟩ : Rot90 Nat) =
        (List.range (w * w - (y * w + x))).map
          (fun p => orig.getD
            ((w - (y * w + x + p) % w - 1) * w + (y * w + x + p) / w) 0) := by
  intro fuel
  induction fuel with
  | zero =>
    intro x y hvalid hfuel
    rw [show w * w - (y * w + x) = 0 from by omega]
    rfl
  | succ fuel ih =>
    intro x y hvalid hfuel
    rcases hvalid with ⟨hx, hy⟩ | ⟨hx0, hyw⟩
    · have hw0 : 0 < w := by omega
      have hb1 : (w - 1) * w = w * w - w := by rw [Nat.sub_one_mul]
      have hb2 : (w - x - 1) * w ≤ (w - 1) * w := Nat.mul_le_mul_right w (by omega)
      have hb3 : w ≤ w * w := Nat.le_mul_of_pos_left w hw0
      have hyw' : y * w ≤ (w - 1) * w := Nat.mul_le_mul_right w (by omega)
      have hidx : (w - x - 1) * w + y < w * w := by omega
      have hpos : y * w + x < w * w := by omega
      have hmod : (y * w + x) % w = x := by
        rw [Nat.mul_comm y w, Nat.mul_add_mod]
        exact Nat.mod_eq_of_lt hx
      have hdiv : (y * w + x) / w = y := by
        rw [Nat.mul_comm y w, Nat.mul_add_div hw0, Nat.div_eq_of_lt hx]
        omega
      have hpeek : Rot90.internal_peek (⟨orig, w, w, x, y⟩ : Rot90 Nat)
          = some (orig.getD ((w - x - 1) * w + y) 0) := by
        simp only [Rot90.internal_peek, Rot90.at_pre]
        rw [if_neg (by omega)]
        rw [List.getElem?_eq_getElem (by omega), List.getD_eq_getElem?_getD,
          List.getElem?_eq_getElem (by omega)]
        rfl
      rw [show w * w - (y * w + x) = (w * w - (y * w + x) - 1) + 1 from by omega,
        List.range_succ_eq_map, List.map_cons, List.map_map]
      by_cases hxh : x + 1 ≥ w
      · have hnext : Rot90.next (⟨orig, w, w, x, y⟩ : Rot90 Nat)
            = (some (orig.getD ((w - x - 1) * w + y) 0), ⟨orig, w, w, 0, y + 1⟩) := by
          simp only [Rot90.next, hpeek]
          rw [if_pos (by omega)]
        have hsm : (y + 1) * w = y * w + w := Nat.succ_mul y w
        have hxw : x = w - 1 := by omega
        simp only [Rot90.takeAll, hnext]
        congr 1
        · simp only [Nat.add_zero, hmod, hdiv]
        · rcases Nat.lt_or_ge (y + 1) w with hy1 | hy1
          · rw [ih 0 (y + 1) (Or.inl ⟨hw0, hy1⟩) (by omega)]
            rw [show w * w - ((y + 1) * w + 0) = w * w - (y * w + x) - 1 from by omega]
            congr 1
            funext p
            simp only [Function.comp_apply]
            rw [show (y + 1) * w + 0 + p = y * w + x + Nat.succ p from by omega]
          · have hyeq : y + 1 = w := by omega
            rw [ih 0 (y + 1) (Or.inr ⟨rfl, hyeq⟩) (by omega)]
            have hrem0 : w * w - ((y + 1) * w + 0) = 0 := by
              rw [hyeq]
              omega
            have hrem0' : w * w - (y * w + x) - 1 = 0 := by omega
            rw [hrem0, hrem0']
            rfl
      · have hnext : Rot90.next (⟨orig, w, w, x, y⟩ : Rot90 Nat)
            = (some (orig.getD ((w - x - 1) * w + y) 0), ⟨orig, w, w, x + 1, y⟩) := by
          simp only [Rot90.next, hpeek]
          rw [if_neg (by omega)]
        simp only [Rot90.takeAll, hnext]
        congr 1
        · simp only [Nat.add_zero, hmod, hdiv]
        · rw [ih (x + 1) y (Or.inl ⟨by omega, hy⟩) (by omega)]
          rw [show w * w - (y * w + (x + 1)) = w * w - (y * w + x) - 1 from by omega]
          congr 1
          funext p
          simp only [Function.comp_apply]
          rw [show y * w + (x + 1) + p = y * w + x + Nat.succ p from by omega]
    · subst hx0
      subst hyw
      rw [show y * y - (y * y + 0) = 0 from by omega]
      have hcond : (y - 0 - 1) * y + y ≥ orig.length := by
        rcases Nat.eq_zero_or_pos y with hw | hw
        · subst hw
          omega
        · have h1 : (y - 0 - 1) * y + y = y * y := by
            have h2 : y ≤ y * y := Nat.le_mul_of_pos_left y hw
            rw [Nat.sub_zero, Nat.sub_one_mul]
            omega
          omega
      have hpeek : Rot90.internal_peek (⟨orig, y, y, 0, y⟩ : Rot90 Nat) = none := by
        simp only [Rot90.internal_peek, Rot90.at_pre]
        rw [if_pos hcond]
      have hnext : Rot90.next (⟨orig, y, y, 0, y⟩ : Rot90 Nat)
          = (none, ⟨orig, y, y, 0, y⟩) := by
        simp only [Rot90.next, hpeek]
      simp only [Rot90.takeAll, hnext]
      rfl

/-- The source indices of the rotation in emission order, as the spec words
them: `y` from `0` to `w - 1`, inner `x` from `0` to `h - 1` (here `h = w`)
varying fastest, source index `(w - x - 1) * w + y`. -/
def rotIndices (w : Nat) : List Nat :=
  (List.range w).flatMap (fun y => (List.range w).map (fun x => (w - x - 1) * w + y))

theorem flatMap_range_eq (m n : Nat) (g : Nat → Nat → Nat) :
    (List.range m).flatMap (fun y => (List.range n).map (fun x => g x y)) =
      (List.range (m * n)).map (fun p => g (p % n) (p / n)) := by
  induction m with
  | zero => simp
  | succ m ih =>
    rw [List.range_succ, List.flatMap_append, ih, Nat.succ_mul, List.range_add,
      List.map_append, List.map_map]
    congr 1
    simp only [List.flatMap_cons, List.flatMap_nil, List.append_nil]
    apply List.map_congr_left
    intro q hq
    rw [List.mem_range] at hq
    have hn0 : 0 < n := by omega
    simp only [Function.comp_apply]
    have hm : (m * n + q) % n = q := by
      rw [Nat.mul_comm m n, Nat.mul_add_mod, Nat.mod_eq_of_lt hq]
    have hd : (m * n + q) / n = m := by
      rw [Nat.mul_comm m n, Nat.mul_add_div hn0, Nat.div_eq_of_lt hq]
      omega
    rw [hm, hd]

theorem takeAll_emission (w : Nat) (orig : List Nat) (hlen : orig.length = w * w) :
    Rot90.takeAll (w * w) (⟨orig, w, w, 0, 0⟩ : Rot90 Nat) =
      (List.range w).flatMap
        (fun y => (List.range w).map (fun x => orig.getD ((w - x - 1) * w + y) 0)) := by
  rw [flatMap_range_eq w w (fun x y => orig.getD ((w - x - 1) * w + y) 0)]
  rcases Nat.eq_zero_or_pos w with hw | hw
  · subst hw
    simp
    rfl
  · have h := takeAll_spec w orig hlen (w * w) 0 0 (Or.inl ⟨hw, hw⟩) (by omega)
    simpa using h

theorem rotIndices_eq_map (w : Nat) :
    rotIndices w = (List.range (w * w)).map (fun p => (w - p % w - 1) * w + p / w) :=
  flatMap_range_eq w w _

theorem rotIndices_nodup (w : Nat) : (rotIndices w).Nodup := by
  rw [rotIndices_eq_map]
  apply List.Nodup.map_on _ (List.nodup_range _)
  intro p hp q hq hfe
  rw [List.mem_range] at hp hq
  have hw0 : 0 < w := by
    rcases Nat.eq_zero_or_pos w with h | h
    · subst h
      simp at hp
    · exact h
  have hpd : p / w < w := (Nat.div_lt_iff_lt_mul hw0).mpr hp
  have hqd : q / w < w := (Nat.div_lt_iff_lt_mul hw0).mpr hq
  have hpm : p % w < w := Nat.mod_lt _ hw0
  have hqm : q % w < w := Nat.mod_lt _ hw0
  have hmodf : ∀ r : Nat, r < w * w →
      ((w - r % w - 1) * w + r / w) % w = r / w := by
    intro r hr
    rw [Nat.mul_comm (w - r % w - 1) w, Nat.mul_add_mod,
      Nat.mod_eq_of_lt ((Nat.div_lt_iff_lt_mul hw0).mpr hr)]
  have hdivf : ∀ r : Nat, r < w * w →
      ((w - r % w - 1) * w + r / w) / w = w - r % w - 1 := by
    intro r hr
    rw [Nat.mul_comm, Nat.mul_add_div hw0,
      Nat.div_eq_of_lt ((Nat.div_lt_iff_lt_mul hw0).mpr hr)]
    omega
  have h1 : p / w = q / w := by
    have := congrArg (fun t => t % w) hfe
    simpa [hmodf p hp, hmodf q hq] using this
  have h2 : w - p % w - 1 = w - q % w - 1 := by
    have := congrArg (fun t => t / w) hfe
    simpa [hdivf p hp, hdivf q hq] using this
  have h3 : p % w = q % w := by omega
  have Hp := Nat.div_add_mod p w
  have Hq := Nat.div_add_mod q w
  rw [h1] at Hp
  omega

theorem rotIndices_complete (w : Nat) (i : Nat) (hi : i < w * w) :
    i ∈ rotIndices w := by
  rw [rotIndices_eq_map]
  rw [List.mem_map]
  have hw0 : 0 < w := by
    rcases Nat.eq_zero_or_pos w with h | h
    · subst h
      simp at hi
    · exact h
  have hid : i / w < w := (Nat.div_lt_iff_lt_mul hw0).mpr hi
  have him : i % w < w := Nat.mod_lt _ hw0
  have hz1 : 0 ≤ i / w := Nat.zero_le _
  have hz2 : 0 ≤ i % w := Nat.zero_le _
  refine ⟨(i % w) * w + (w - 1 - i / w), ?_, ?_⟩
  · rw [List.mem_range]
    have hb1 : (i % w) * w + w = (i % w + 1) * w := (Nat.succ_mul _ _).symm
    have hb2 : (i % w + 1) * w ≤ w * w := Nat.mul_le_mul_right w (by omega)
    have hb3 : w - 1 - i / w < w := by omega
    omega
  · have hlt : w - 1 - i / w < w := by omega
    have hm : ((i % w) * w + (w - 1 - i / w)) % w = w - 1 - i / w := by
      rw [Nat.mul_comm (i % w) w, Nat.mul_add_mod, Nat.mod_eq_of_lt hlt]
    have hd : ((i % w) * w + (w - 1 - i / w)) / w = i % w := by
      rw [Nat.mul_comm (i % w) w, Nat.mul_add_div hw0, Nat.div_eq_of_lt hlt]
      omega
    rw [hm, hd]
    have hsub : w - (w - 1 - i / w) - 1 = i / w := by omega
    rw [hsub]
    have := Nat.div_add_mod i w
    have hcomm : (i / w) * w = w * (i / w) := Nat.mul_comm _ _
    omega

theorem rotIndices_count (w : Nat) (i : Nat) (hi : i < w * w) :
    (rotIndices w).count i = 1 :=
  List.count_eq_one_of_mem (rotIndices_nodup w) (rotIndices_complete w i hi)

theorem rotIndices_length (w : Nat) : (rotIndices w).length = w * w := by
  rw [rotIndices_eq_map, List.length_map, List.length_range]

theorem getD_set_ne (l : List Nat) (p k v : Nat) (h : p ≠ k) :
    (l.set p v).getD k 0 = l.getD k 0 := by
  rw [List.getD_eq_getElem?_getD, List.getElem?_set, if_neg h,
    ← List.getD_eq_getElem?_getD]

theorem getD_set_self (l : List Nat) (p v : Nat) (h : p < l.length) :
    (l.set p v).getD p 0 = v := by
  rw [List.getD_eq_getElem?_getD, List.getElem?_set, if_pos rfl, if_pos h]
  rfl

theorem foldl_set_length (raw : List Nat) (i : Nat) :
    ∀ (js : List Nat) (buf : List Nat),
      (js.foldl
        (fun buf j =>
          if (raw.getD i 0) &&& (1 <<< j) > 0 then buf.set (i * 8 + j) 255 else buf)
        buf).length = buf.length := by
  intro js
  induction js with
  | nil => intro buf; rfl
  | cons j js ih =>
    intro buf
    rw [List.foldl_cons, ih]
    split
    · rw [List.length_set]
    · rfl

theorem foldl_set_getD_out (raw : List Nat) (i : Nat) :
    ∀ (js : List Nat) (buf : List Nat) (k : Nat), (∀ j ∈ js, i * 8 + j ≠ k) →
      (js.foldl
        (fun buf j =>
          if (raw.getD i 0) &&& (1 <<< j) > 0 then buf.set (i * 8 + j) 255 else buf)
        buf).getD k 0 = buf.getD k 0 := by
  intro js
  induction js with
  | nil => intro buf k _; rfl
  | cons j js ih =>
    intro buf k hk
    rw [List.foldl_cons, ih _ k (fun j' hj' => hk j' (List.mem_cons_of_mem j hj'))]
    split
    · exact getD_set_ne buf _ k 255 (hk j (List.mem_cons_self j js))
    · rfl

theorem foldl_set_getD (raw : List Nat) (i : Nat) :
    ∀ (js : List Nat) (buf : List Nat) (j0 : Nat),
      js.Nodup → j0 ∈ js → i * 8 + j0 < buf.length →
      (js.foldl
        (fun buf j =>
          if (raw.getD i 0) &&& (1 <<< j) > 0 then buf.set (i * 8 + j) 255 else buf)
        buf).getD (i * 8 + j0) 0 =
        if (raw.getD i 0) &&& (1 <<< j0) > 0 then 255 else buf.getD (i * 8 + j0) 0 := by
  intro js
  induction js with
  | nil => intro buf j0 _ hmem _; exact absurd hmem (List.not_mem_nil j0)
  | cons j js ih =>
    intro buf j0 hnd hmem hbound
    rw [List.nodup_cons] at hnd
    rw [List.foldl_cons]
    rcases List.mem_cons.mp hmem with rfl | hmem'
    · rw [foldl_set_getD_out raw i js _ _ ?hout]
      case hout =>
        intro j' hj' hc
        have : j' = j0 := by omega
        exact hnd.1 (this ▸ hj')
      split
      · exact getD_set_self buf _ 255 hbound
      · rfl
    · have hne : j ≠ j0 := fun hc => hnd.1 (hc ▸ hmem')
      rw [ih _ j0 hnd.2 hmem' ?hb]
      case hb =>
        split
        · rw [List.length_set]
          exact hbound
        · exact hbound
      split
      · rfl
      · split
        · exact getD_set_ne buf (i * 8 + j) (i * 8 + j0) 255 (by omega)
        · rfl

theorem fill_byte_length (raw buf : List Nat) (i : Nat) :
    (fill_byte raw buf i).length = buf.length :=
  foldl_set_length raw i (List.range 8) buf

theorem fill_byte_getD_out (raw buf : List Nat) (i k : Nat)
    (h : ∀ j, j < 8 → i * 8 + j ≠ k) :
    (fill_byte raw buf i).getD k 0 = buf.getD k 0 :=
  foldl_set_getD_out raw i (List.range 8) buf k
    (fun j hj => h j (List.mem_range.mp hj))

theorem fill_byte_getD (raw buf : List Nat) (i j0 : Nat) (hj : j0 < 8)
    (hbound : i * 8 + j0 < buf.length) :
    (fill_byte raw buf i).getD (i * 8 + j0) 0 =
      if (raw.getD i 0) &&& (1 <<< j0) > 0 then 255 else buf.getD (i * 8 + j0) 0 :=
  foldl_set_getD raw i (List.range 8) buf j0 (List.nodup_range 8)
    (List.mem_range.mpr hj) hbound

theorem outer_fill_length (raw : List Nat) :
    ∀ (is buf : List Nat), (is.foldl (fill_byte raw) buf).length = buf.length := by
  intro is
  induction is with
  | nil => intro buf; rfl
  | cons i is ih =>
    intro buf
    rw [List.foldl_cons, ih, fill_byte_length]

theorem outer_fill_getD_out (raw : List Nat) :
    ∀ (is buf : List Nat) (k : Nat), (∀ i ∈ is, ∀ j, j < 8 → i * 8 + j ≠ k) →
      (is.foldl (fill_byte raw) buf).getD k 0 = buf.getD k 0 := by
  intro is
  induction is with
  | nil => intro buf k _; rfl
  | cons i is ih =>
    intro buf k hk
    rw [List.foldl_cons, ih _ k (fun i' hi' => hk i' (List.mem_cons_of_mem i hi')),
      fill_byte_getD_out raw buf i k (hk i (List.mem_cons_self i is))]

theorem outer_fill_getD (raw : List Nat) :
    ∀ (is buf : List Nat) (i0 j0 : Nat),
      is.Nodup → i0 ∈ is → j0 < 8 → i0 * 8 + j0 < buf.length →
      (is.foldl (fill_byte raw) buf).getD (i0 * 8 + j0) 0 =
        if (raw.getD i0 0) &&& (1 <<< j0) > 0 then 255
        else buf.getD (i0 * 8 + j0) 0 := by
  intro is
  induction is with
  | nil => intro buf i0 j0 _ hmem _ _; exact absurd hmem (List.not_mem_nil i0)
  | cons i is ih =>
    intro buf i0 j0 hnd hmem hj hbound
    rw [List.nodup_cons] at hnd
    rw [List.foldl_cons]
    rcases List.mem_cons.mp hmem with rfl | hmem'
    · rw [outer_fill_getD_out raw is _ _ ?hout, fill_byte_getD raw buf i0 j0 hj hbound]
      case hout =>
        intro i' hi' j hjlt hc
        have : i' = i0 := by omega
        exact hnd.1 (this ▸ hi')
    · have hne : i ≠ i0 := fun hc => hnd.1 (hc ▸ hmem')
      rw [ih _ i0 j0 hnd.2 hmem' hj (by rw [fill_byte_length]; exact hbound),
        fill_byte_getD_out raw buf i _ (fun j hjlt hc => hne (by omega))]

theorem read_png_1bit_length (raw : List Nat) :
    (read_png_1bit raw).length = raw.length * 8 := by
  rw [read_png_1bit, outer_fill_length, List.length_replicate]

theorem read_png_1bit_getD (raw : List Nat) (i j : Nat)
    (hi : i < raw.length) (hj : j < 8) :
    (read_png_1bit raw).getD (i * 8 + j) 0 =
      if (raw.getD i 0) &&& (1 <<< j) > 0 then 255 else 0 := by
  have hb1 : (i + 1) * 8 ≤ raw.length * 8 := Nat.mul_le_mul_right 8 (by omega)
  have hb2 : (i + 1) * 8 = i * 8 + 8 := Nat.succ_mul i 8
  have hbound : i * 8 + j < (List.replicate (raw.length * 8) (0 : Nat)).length := by
    rw [List.length_replicate]
    omega
  rw [read_png_1bit, outer_fill_getD raw _ _ i j (List.nodup_range _)
    (List.mem_range.mpr hi) hj hbound]
  have hrep : (List.replicate (raw.length * 8) (0 : Nat)).getD (i * 8 + j) 0 = 0 := by
    rw [List.getD_eq_getElem?_getD, List.getElem?_replicate]
    split <;> rfl
  rw [hrep]

/-! Claim theorems. -/

/-- C1 (amended): for a 64×64 image (4096 samples), one send writes exactly
588 bytes: the 11-byte sentinel preamble, one leading pad byte of value 0
written by the first loop iteration, and then 64 row units of 8 packed data
bytes followed by 1 pad byte of value 0. -/
theorem c1_frame_bytes (invert : Bool) (data : List Nat)
    (hlen : data.length = 64 * 64) :
    writes (send_raw invert data)
      = List.replicate 11 35 ++ 0 :: (chunks64 data).flatMap (rowBytes invert)
    ∧ (writes (send_raw invert data)).length = 588 := by
  constructor
  · exact send_raw_writes invert 63 data (by omega)
  · rw [send_raw_writes_length invert 63 data (by omega)]

theorem c1_counterexample :
    (writes (send_raw false (List.replicate 4096 0))).length ≠ 587 := by
  rw [send_raw_writes_length false 63 (List.replicate 4096 0)
    (by rw [List.length_replicate])]
  decide

theorem c1_witness :
    (List.replicate 4096 (0 : Nat)).length = 64 * 64
    ∧ (writes (send_raw false (List.replicate 4096 0))
        = List.replicate 11 35
            ++ 0 :: (chunks64 (List.replicate 4096 0)).flatMap (rowBytes false)
      ∧ (writes (send_raw false (List.replicate 4096 0))).length = 588) :=
  ⟨by rw [List.length_replicate],
    c1_frame_bytes false (List.replicate 4096 0) (by rw [List.length_replicate])⟩

/-- C2 (confirmed): for every non-empty input to `send_raw`, the first byte
written after the 11-byte preamble is a `0x00` pad byte, before any data byte
of the first row: the event right after the preamble's flush is the pad write
(the row index starts at `-1`, so the pad branch fires on the first loop
iteration), and the first 12 bytes on the wire are the 11 sentinels then `0`. -/
theorem c2_first_pad (invert : Bool) (data : List Nat) (hne : data ≠ []) :
    (writes (send_raw invert data)).take 12 = List.replicate 11 35 ++ [0]
    ∧ ∃ t, send_raw invert data
        = List.replicate 11 (Ev.write 35) ++ Ev.flush :: Ev.write 0 :: t := by
  obtain ⟨a, l, rfl⟩ : ∃ a l, data = a :: l := by
    cases data with
    | nil => exact absurd rfl hne
    | cons a l => exact ⟨a, l, rfl⟩
  rw [send_raw, sendLoop_start]
  constructor
  · have hw : writes ((RESET_SEQ.map Ev.write) ++ [Ev.flush]
        ++ (Ev.write 0 :: sendLoop invert
              ⟨ROWS_BETWEEN_SLEEPS, 0, (if thresholdBit invert a then 0 ||| 1 <<< 0 else 0), 1⟩ l)
        ++ [Ev.flush])
        = List.replicate 11 35
          ++ 0 :: writes (sendLoop invert
              ⟨ROWS_BETWEEN_SLEEPS, 0, (if thresholdBit invert a then 0 ||| 1 <<< 0 else 0), 1⟩ l)
            ++ [] := by
      rw [writes_append, writes_append, writes_append]
      rfl
    rw [hw, List.append_nil]
    rw [show (12 : Nat) = 11 + 1 from rfl, List.take_append_eq_append_take]
    rw [List.length_replicate,
      List.take_of_length_le (by rw [List.length_replicate]; omega)]
    simp
  · refine ⟨sendLoop invert
      ⟨ROWS_BETWEEN_SLEEPS, 0, (if thresholdBit invert a then 0 ||| 1 <<< 0 else 0), 1⟩ l
      ++ [Ev.flush], ?_⟩
    rw [RESET_SEQ, List.map_replicate]
    simp

theorem c2_witness :
    ([200] : List Nat) ≠ []
    ∧ ((writes (send_raw false [200])).take 12 = List.replicate 11 35 ++ [0]
      ∧ ∃ t, send_raw false [200]
          = List.replicate 11 (Ev.write 35) ++ Ev.flush :: Ev.write 0 :: t) :=
  ⟨by simp, c2_first_pad false [200] (by simp)⟩

/-- C3 (amended): during one send of `64 × (n + 1)` samples, a pacing sleep
occurs exactly once per `ROWS_BETWEEN_SLEEPS + 1` (= 3) completed row units —
the first sleep after the first completed row, giving `(rows + 2) / 3` sleeps
in total — never between the data bytes of a row, and every sleep event is
immediately preceded by the flush of the row that triggered it. -/
theorem c3_sleep_cadence (invert : Bool) (n : Nat) (l : List Nat)
    (hlen : l.length = 64 * (n + 1)) :
    (send_raw invert l).count Ev.sleep
      = (n + 1 + ROWS_BETWEEN_SLEEPS) / (ROWS_BETWEEN_SLEEPS + 1)
    ∧ sff (Ev.write 0) (send_raw invert l) = true := by
  constructor
  · rw [send_raw_sleep_count invert n l hlen]
    rfl
  · exact sff_send_raw invert n l hlen

theorem c3_counterexample :
    (send_raw false (List.replicate 384 0)).count Ev.sleep ≠ 384 / 64 / 2 := by
  rw [send_raw_sleep_count false 5 (List.replicate 384 0) (by rw [List.length_replicate])]
  decide

theorem c3_witness :
    (List.replicate 64 (0 : Nat)).length = 64 * (0 + 1)
    ∧ ((send_raw false (List.replicate 64 0)).count Ev.sleep
        = (0 + 1 + ROWS_BETWEEN_SLEEPS) / (ROWS_BETWEEN_SLEEPS + 1)
      ∧ sff (Ev.write 0) (send_raw false (List.replicate 64 0)) = true) :=
  ⟨by rw [List.length_replicate],
    c3_sleep_cadence false 0 (List.replicate 64 0) (by rw [List.length_replicate])⟩

/-- C4 (amended): for square dimensions — the only ones the program uses,
`dims = (64, 64)` — and any buffer of length `w × w`, the rotation transform
construction succeeds, the sequence yields exactly `w × w` samples and
terminates, its emission order is: for `y` from `0` to `w - 1` and `x` from
`0` to `w - 1` with `x` varying fastest, emit the source sample at index
`(w − x − 1)·w + y`, and every source index appears exactly once in the index
sequence.  (For non-square dimensions the iterator does not yield
`width × height` samples; see the counterexample.) -/
theorem c4_rotation (w : Nat) (orig : List Nat) (hlen : orig.length = w * w) :
    Rot90.new orig (w, w) = some ⟨orig, w, w, 0, 0⟩
    ∧ Rot90.takeAll (w * w) (⟨orig, w, w, 0, 0⟩ : Rot90 Nat)
        = (List.range w).flatMap
            (fun y => (List.range w).map (fun x => orig.getD ((w - x - 1) * w + y) 0))
    ∧ (Rot90.takeAll (w * w) (⟨orig, w, w, 0, 0⟩ : Rot90 Nat)).length = w * w
    ∧ (∀ i, i < w * w → (rotIndices w).count i = 1)
    ∧ (rotIndices w).length = w * w := by
  refine ⟨?_, takeAll_emission w orig hlen, ?_,
    fun i hi => rotIndices_count w i hi, rotIndices_length w⟩
  · rw [Rot90.new, if_pos hlen]
  · rw [takeAll_emission w orig hlen,
      flatMap_range_eq w w (fun x y => orig.getD ((w - x - 1) * w + y) 0),
      List.length_map, List.length_range]

theorem c4_counterexample :
    ([0, 0] : List Nat).length = 2 * 1
    ∧ Rot90.new ([0, 0] : List Nat) (2, 1) = some ⟨[0, 0], 2, 1, 0, 0⟩
    ∧ Rot90.takeAll (2 * 1) (⟨[0, 0], 2, 1, 0, 0⟩ : Rot90 Nat) = []
    ∧ Rot90.takeAll 1000 (⟨[0, 0], 2, 1, 0, 0⟩ : Rot90 Nat) = []
    ∧ (0 : Nat) ≠ 2 * 1 :=
  ⟨rfl, rfl, rfl, rfl, by decide⟩

theorem c4_witness :
    ([10, 20, 30, 40] : List Nat).length = 2 * 2
    ∧ (Rot90.new ([10, 20, 30, 40] : List Nat) (2, 2) = some ⟨[10, 20, 30, 40], 2, 2, 0, 0⟩
      ∧ Rot90.takeAll (2 * 2) (⟨[10, 20, 30, 40], 2, 2, 0, 0⟩ : Rot90 Nat)
          = (List.range 2).flatMap
              (fun y => (List.range 2).map
                (fun x => ([10, 20, 30, 40] : List Nat).getD ((2 - x - 1) * 2 + y) 0))
      ∧ (Rot90.takeAll (2 * 2) (⟨[10, 20, 30, 40], 2, 2, 0, 0⟩ : Rot90 Nat)).length = 2 * 2
      ∧ (∀ i, i < 2 * 2 → (rotIndices 2).count i = 1)
      ∧ (rotIndices 2).length = 2 * 2) :=
  ⟨rfl, c4_rotation 2 [10, 20, 30, 40] rfl⟩

/-- C5 (confirmed): for any 8 consecutive samples `s0..s7` taken in emission
order at a byte-aligned position mid-row, and any invert flag, the packed data
byte written equals `b0 + 2·b1 + 4·b2 + … + 128·b7` where `bi = 1` if
`(si > 127)` xor invert, else `0`; the first sample of the group occupies the
least significant bit. -/
theorem c5_packing (invert : Bool) (rss iwr : Nat)
    (s0 s1 s2 s3 s4 s5 s6 s7 : Nat) (rest : List Nat) (hiwr : iwr < 7) :
    sendLoop invert ⟨rss, (iwr : Int), 0, 0⟩ ([s0, s1, s2, s3, s4, s5, s6, s7] ++ rest)
      = Ev.write ((if thresholdBit invert s0 then 1 else 0)
          + 2 * (if thresholdBit invert s1 then 1 else 0)
          + 4 * (if thresholdBit invert s2 then 1 else 0)
          + 8 * (if thresholdBit invert s3 then 1 else 0)
          + 16 * (if thresholdBit invert s4 then 1 else 0)
          + 32 * (if thresholdBit invert s5 then 1 else 0)
          + 64 * (if thresholdBit invert s6 then 1 else 0)
          + 128 * (if thresholdBit invert s7 then 1 else 0))
        :: sendLoop invert ⟨rss, (iwr : Int) + 1, 0, 0⟩ rest := by
  have hb := sendLoop_byte invert [s0, s1, s2, s3, s4, s5, s6, s7]
    ⟨rss, (iwr : Int), 0, 0⟩ rest (by rfl) (by norm_num) (by positivity)
  rw [if_neg (by dsimp only; omega)] at hb
  rw [hb]
  have hp : packBits invert [s0, s1, s2, s3, s4, s5, s6, s7] 0 0
      = bitSum invert [s0, s1, s2, s3, s4, s5, s6, s7] :=
    pack8_eq_bitSum invert _
  rw [show (⟨rss, (iwr : Int), 0, 0⟩ : SendState).indexWithinByte = 0 from rfl,
    show (⟨rss, (iwr : Int), 0, 0⟩ : SendState).byte = 0 from rfl, hp]
  simp only [bitSum]
  ring_nf

theorem c5_witness :
    (0 : Nat) < 7
    ∧ sendLoop false ⟨2, ((0 : Nat) : Int), 0, 0⟩
        ([200, 0, 0, 0, 0, 0, 0, 200] ++ [])
      = Ev.write ((if thresholdBit false 200 then 1 else 0)
          + 2 * (if thresholdBit false 0 then 1 else 0)
          + 4 * (if thresholdBit false 0 then 1 else 0)
          + 8 * (if thresholdBit false 0 then 1 else 0)
          + 16 * (if thresholdBit false 0 then 1 else 0)
          + 32 * (if thresholdBit false 0 then 1 else 0)
          + 64 * (if thresholdBit false 0 then 1 else 0)
          + 128 * (if thresholdBit false 200 then 1 else 0))
        :: sendLoop false ⟨2, ((0 : Nat) : Int) + 1, 0, 0⟩ [] :=
  ⟨by decide, c5_packing false 2 0 200 0 0 0 0 0 0 200 [] (by decide)⟩

/-- C6 (amended): during one send the connection is flushed after the
preamble, then after the 8 data bytes of every row — between the 8th data
byte of the row and that row's trailing pad byte (a due sleep sits between the
flush and the pad) — and once more at the end; the flush does not come after
the row unit's pad byte as the original claim stated. -/
theorem c6_flush_position (invert : Bool) (n : Nat) (l : List Nat)
    (hlen : l.length = 64 * (n + 1)) :
    send_raw invert l =
      List.replicate 11 (Ev.write 35) ++ [Ev.flush] ++ [Ev.write 0]
        ++ rowsTrace invert (n + 1) ROWS_BETWEEN_SLEEPS l ++ [Ev.flush] :=
  send_raw_trace invert n l hlen

theorem c6_counterexample :
    send_raw false (List.replicate 64 255)
      = List.replicate 11 (Ev.write 35)
        ++ [Ev.flush, Ev.write 0,
            Ev.write 255, Ev.write 255, Ev.write 255, Ev.write 255,
            Ev.write 255, Ev.write 255, Ev.write 255, Ev.write 255,
            Ev.flush, Ev.sleep, Ev.write 0, Ev.flush]
    ∧ (send_raw false (List.replicate 64 255))[20]? = some (Ev.write 255)
    ∧ (send_raw false (List.replicate 64 255))[21]? = some Ev.flush
    ∧ (send_raw false (List.replicate 64 255))[23]? = some (Ev.write 0) := by
  refine ⟨by decide, by decide, by decide, by decide⟩

theorem c6_witness :
    (List.replicate 64 (1 : Nat)).length = 64 * (0 + 1)
    ∧ send_raw false (List.replicate 64 1) =
        List.replicate 11 (Ev.write 35) ++ [Ev.flush] ++ [Ev.write 0]
          ++ rowsTrace false (0 + 1) ROWS_BETWEEN_SLEEPS (List.replicate 64 1)
          ++ [Ev.flush] :=
  ⟨by rw [List.length_replicate],
    c6_flush_position false 0 (List.replicate 64 1) (by rw [List.length_replicate])⟩

/-- C7 (confirmed): the auto-detecting decode (`send_png_g`) decodes via the
grayscale decoder; a result of length `64 × 64` is sent as grayscale; a result
of length exactly `64 × 64 / 8` is re-decoded via the 1-bit decoder; any other
length — such as 4095 — hits the hard assertion and fails, with nothing sent. -/
theorem c7_decode_auto (d : List Nat) :
    (d.length = 64 * 64 → send_png_g d = some SendPath.grayscale)
    ∧ (d.length ≠ 64 * 64 → d.length = 64 * 64 / 8 → send_png_g d = some SendPath.onebit)
    ∧ (d.length ≠ 64 * 64 → d.length ≠ 64 * 64 / 8 → send_png_g d = none) := by
  refine ⟨fun h => ?_, fun h1 h2 => ?_, fun h1 h2 => ?_⟩
  · rw [send_png_g, if_neg (by omega)]
  · rw [send_png_g, if_pos h1, if_pos h2]
  · rw [send_png_g, if_pos h1, if_neg h2]

theorem c7_witness :
    (List.replicate 4095 (0 : Nat)).length ≠ 64 * 64
    ∧ (List.replicate 4095 (0 : Nat)).length ≠ 64 * 64 / 8
    ∧ send_png_g (List.replicate 4095 0) = none := by
  have h1 : (List.replicate 4095 (0 : Nat)).length ≠ 64 * 64 := by
    rw [List.length_replicate]
    decide
  have h2 : (List.replicate 4095 (0 : Nat)).length ≠ 64 * 64 / 8 := by
    rw [List.length_replicate]
    decide
  exact ⟨h1, h2, (c7_decode_auto _).2.2 h1 h2⟩

/-- C8 (confirmed): for every buffer whose length differs from
`width × height`, constructing the rotation transform fails (`Rot90::new`'s
assertion panics), and since Rust evaluates `Rot90::new(data, dims)` before
`send_raw` is entered, the failure happens with no byte written: the event
trace of `send_rotated` is empty. -/
theorem c8_fail_before_write (invert : Bool) (dims : Nat × Nat) (data : List Nat)
    (h : data.length ≠ dims.1 * dims.2) :
    Rot90.new data dims = none
    ∧ send_rotated_events invert dims data = ([], false) := by
  constructor
  · rw [Rot90.new, if_neg h]
  · rw [send_rotated_events, Rot90.new, if_neg h]

theorem c8_witness :
    ([1, 2, 3] : List Nat).length ≠ (64, 64).1 * (64, 64).2
    ∧ (Rot90.new ([1, 2, 3] : List Nat) (64, 64) = none
      ∧ send_rotated_events false (64, 64) [1, 2, 3] = ([], false)) :=
  ⟨by decide, c8_fail_before_write false (64, 64) [1, 2, 3] (by decide)⟩

/-- C9 (confirmed): trailing samples that do not fill a complete byte are
dropped by the packer: appending fewer than 8 extra samples after any
non-empty whole number of bytes leaves the serial trace unchanged — the
incomplete byte is never written, zero-padded, or flushed. -/
theorem c9_drop_incomplete (invert : Bool) (l c : List Nat)
    (hl : l ≠ []) (hmul : l.length % 8 = 0) (hc : c.length < 8) :
    send_raw invert (l ++ c) = send_raw invert l :=
  send_raw_drop_partial invert l c hl hmul hc

theorem c9_witness :
    (List.replicate 64 (0 : Nat)) ≠ []
    ∧ (List.replicate 64 (0 : Nat)).length % 8 = 0
    ∧ ([200, 201, 202] : List Nat).length < 8
    ∧ send_raw false (List.replicate 64 0 ++ [200, 201, 202])
        = send_raw false (List.replicate 64 0) := by
  have h1 : (List.replicate 64 (0 : Nat)) ≠ [] := by simp
  have h2 : (List.replicate 64 (0 : Nat)).length % 8 = 0 := by
    rw [List.length_replicate]
  have h3 : ([200, 201, 202] : List Nat).length < 8 := by decide
  exact ⟨h1, h2, h3, c9_drop_incomplete false (List.replicate 64 0) [200, 201, 202] h1 h2 h3⟩

/-- C10 (confirmed): the 1-bit decode expands each input byte into 8 intensity
samples, least significant bit first: the output sample at index `8·i + j` is
255 when bit `j` of input byte `i` is set and 0 otherwise, and the output
length is exactly 8 times the raw byte count. -/
theorem c10_expand_1bit (raw : List Nat) :
    (read_png_1bit raw).length = 8 * raw.length
    ∧ (∀ i j, i < raw.length → j < 8 →
        (read_png_1bit raw).getD (8 * i + j) 0 =
          if (raw.getD i 0) &&& (1 <<< j) > 0 then 255 else 0) := by
  constructor
  · rw [read_png_1bit_length, Nat.mul_comm]
  · intro i j hi hj
    rw [show 8 * i + j = i * 8 + j from by rw [Nat.mul_comm]]
    exact read_png_1bit_getD raw i j hi hj

theorem c10_witness :
    (0 : Nat) < ([5] : List Nat).length
    ∧ (0 : Nat) < 8
    ∧ (read_png_1bit [5]).getD (8 * 0 + 0) 0 = 255 := by
  refine ⟨by decide, by decide, ?_⟩
  have h := (c10_expand_1bit [5]).2 0 0 (by decide) (by decide)
  rw [h]
  decide

end Fett
